import Mathlib

/-!
Shallow embedding of the wildcard-domain-finder application (`app.js`) and
proofs about its candidate generator, availability prober, batch scheduler,
run statistics, recent-hits list and result sink.

Domains and patterns are embedded as `List Char`.  DNS resolution is
abstracted as an oracle `resolve : List Char → ResolveResult` giving, for each
domain, what `dns.resolve` would do for it; probe completions are modelled in
the order the event loop serialises their continuations (within a batch the
code `await`s `Promise.allSettled`, so all state updates of one batch happen
before the next batch starts).
-/

/-- Embeds `CONFIG.ALPHABET = "abcdefghijklmnopqrstuvwxyz0123456789"`
(app.js line 10). -/
def ALPHABET : List Char := "abcdefghijklmnopqrstuvwxyz0123456789".toList

/-- What the awaited `dns.resolve(domain)` call does for one domain: either it
fulfills (some address records) or it rejects with an error carrying a `code`
string (for example "ENOTFOUND", "ENODATA", "ETIMEOUT", "ESERVFAIL"). -/
inductive ResolveResult where
  | success : ResolveResult
  | failure : String → ResolveResult
deriving DecidableEq, Repr

/-- The spec's Probe Outcome taxonomy.  Modelled from the spec: `Available`,
`Unavailable`, `Error` (spec §3 "Probe Outcome", §4.2). -/
inductive Outcome where
  | available : Outcome
  | unavailable : Outcome
  | error : Outcome
deriving DecidableEq, Repr

/-- Classifier following the spec's words (§4.2): success ↦ `Unavailable`,
name-not-found / no-data failure ↦ `Available`, any other failure ↦ `Error`.
Used to compare the code's behaviour against the spec's taxonomy. -/
def specOutcome : ResolveResult → Outcome
  | ResolveResult.success => Outcome.unavailable
  | ResolveResult.failure code =>
      if code = "ENOTFOUND" || code = "ENODATA" then Outcome.available
      else Outcome.error

/-- The shared `this.stats` record (app.js lines 22-28), without the
display-only `startTime`. -/
structure Stats where
  total : Nat
  checked : Nat
  available : Nat
  errors : Nat
deriving DecidableEq, Repr

/-- Embeds `isDomainAvailable` (app.js lines 34-50).  The first component is
the returned boolean (`true` means "appears available"); the second is the
`this.stats` record after the call, because line 47 (`this.stats.errors++`)
mutates shared state from inside the prober.  The source also creates an
`AbortController` and a timer that aborts it after `this.timeout`
milliseconds, but the controller's signal is never passed to `dns.resolve`,
so neither the timer nor the timeout value has any effect on the result;
`isDomainAvailableTimed` below records that explicitly. -/
def isDomainAvailable (res : ResolveResult) (stats : Stats) : Bool × Stats :=
  match res with
  | ResolveResult.success => (false, stats)
  | ResolveResult.failure code =>
      if code = "ENOTFOUND" || code = "ENODATA" then (true, stats)
      else (false, { stats with errors := stats.errors + 1 })

/-- Embeds `isDomainAvailable` together with its configured `this.timeout`
value (app.js lines 36-40).  The timer created on line 37 only calls
`controller.abort()`, and `controller.signal` is never given to
`dns.resolve(domain)` on line 39, so the `timeout` argument is dead: the
result is computed from the resolution result alone. -/
def isDomainAvailableTimed (timeout : Nat) (res : ResolveResult) (stats : Stats) :
    Bool × Stats :=
  match timeout with
  | _ => isDomainAvailable res stats

/-- The boolean `isDomainAvailable` returns, as a function of the resolution
result only (the stats argument never influences it). -/
def availBool : ResolveResult → Bool
  | ResolveResult.success => false
  | ResolveResult.failure code => code = "ENOTFOUND" || code = "ENODATA"

/-- Embeds the inner recursion `generateWithWildcard` of `generateDomains`
(app.js lines 65-81), recursing over the remaining suffix of the pattern
instead of carrying an index into a mutated string: at a `*` position the
code branches over every character of `chars` in order, depth first, and
pushes each fully substituted string; at any other position the character is
kept.  The emitted (depth-first) order is preserved. -/
def expandWildcards (chars : List Char) : List Char → List (List Char)
  | [] => [[]]
  | c :: rest =>
      if c = '*' then
        (chars.map fun ch => (expandWildcards chars rest).map fun t => ch :: t).flatten
      else
        (expandWildcards chars rest).map fun t => c :: t

/-- Embeds `generateDomains(baseDomain, randomize = true)` (app.js lines
53-85).  If the pattern holds no `*`, the pattern itself is returned as a
singleton.  Otherwise `chars` is `CONFIG.ALPHABET` split into characters; when
`randomize` is true the code shuffles it in place with
`chars.sort(() => Math.random() - 0.5)`, which produces some permutation of
the alphabet — that resulting permutation is the `perm` argument here (it is
unused when `randomize` is false). -/
def generateDomains (randomize : Bool) (perm : List Char) (baseDomain : List Char) :
    List (List Char) :=
  if !baseDomain.contains '*' then [baseDomain]
  else expandWildcards (if randomize then perm else ALPHABET) baseDomain

/-- The predicate "candidate `q` equals pattern `p` with each `*` position
replaced by some character of `chars` and all other positions unchanged". -/
def MatchesPattern (chars p q : List Char) : Prop :=
  List.Forall₂ (fun a b => if a = '*' then b ∈ chars else b = a) p q

/-- The whole mutable run state shared by the scheduler and the prober:
`this.stats`, `this.recentlyFound` (app.js line 29), the lines written to the
output stream so far (the Result Sink), and the `results` array accumulated by
`processDomainBatch` (each settled probe contributes its `{domain, available}`
record).  The display-only `currentlyChecking` field is omitted. -/
structure RunState where
  stats : Stats
  recentlyFound : List (List Char)
  sink : List (List Char)
  results : List (List Char × Bool)
deriving DecidableEq, Repr

/-- Embeds the body of one probe task of `processDomainBatch` (app.js lines
93-109): call `isDomainAvailable` (which may bump `stats.errors`), increment
`stats.checked`, and if available increment `stats.available`, write the
domain line to the sink, and `unshift` the domain onto `recentlyFound`,
popping the last entry when the length exceeds 3; finally record
`{domain, available}` in `results`. -/
def processOne (resolve : List Char → ResolveResult) (s : RunState)
    (domain : List Char) : RunState :=
  let r := isDomainAvailable (resolve domain) s.stats
  let st := { r.2 with checked := r.2.checked + 1 }
  if r.1 then
    let ring0 := domain :: s.recentlyFound
    let ring1 := if ring0.length > 3 then ring0.dropLast else ring0
    { stats := { st with available := st.available + 1 },
      recentlyFound := ring1,
      sink := s.sink ++ [domain],
      results := s.results ++ [(domain, r.1)] }
  else
    { stats := st, recentlyFound := s.recentlyFound, sink := s.sink,
      results := s.results ++ [(domain, r.1)] }

/-- Embeds the batch partition of `processDomainBatch` (app.js line 91-92):
the loop `for (i = 0; i < domains.length; i += batchSize)` takes
`domains.slice(i, i + batchSize)` each round, i.e. (for `batchSize ≥ 1`)
consecutive chunks of `batchSize` elements.  Written as taking one element
plus the next `batchSize - 1`, which agrees with the slices whenever
`batchSize ≥ 1` (for `batchSize = 0` the source loop would not terminate). -/
def chunks (b : Nat) (l : List α) : List (List α) :=
  match l with
  | [] => []
  | x :: xs => (x :: xs.take (b - 1)) :: chunks b (xs.drop (b - 1))
termination_by l.length
decreasing_by simp; omega

/-- Embeds `processDomainBatch(domains, writer)` (app.js lines 88-123): the
batches run in sequence, and within one batch the probe continuations update
the shared state one after another on the event loop, here in batch order. -/
def processDomainBatch (resolve : List Char → ResolveResult) (batchSize : Nat)
    (s : RunState) (domains : List (List Char)) : RunState :=
  (chunks batchSize domains).foldl (fun st batch => batch.foldl (processOne resolve) st) s

/-- The run state at the start of `processDomainBatch` inside
`findAvailableDomains` (app.js lines 22-29 and 182): all counters zero except
`total`, which line 182 sets to the number of candidates; the recent list,
sink and results start empty. -/
def runInit (domains : List (List Char)) : RunState :=
  { stats := { total := domains.length, checked := 0, available := 0, errors := 0 },
    recentlyFound := [], sink := [], results := [] }

/-- Embeds the probing part of `findAvailableDomains` on an arbitrary
candidate list: set `stats.total`, then run `processDomainBatch` from the
fresh state (app.js lines 176-194). -/
def runOnCandidates (resolve : List Char → ResolveResult) (batchSize : Nat)
    (domains : List (List Char)) : RunState :=
  processDomainBatch resolve batchSize (runInit domains) domains

/-- The candidate list `findAvailableDomains` probes (app.js line 181):
`this.generateDomains(baseDomain)` — the call site passes no second argument,
so the `randomize = true` default applies. -/
def findAvailableDomainsCandidates (perm : List Char) (baseDomain : List Char) :
    List (List Char) :=
  generateDomains true perm baseDomain

/-- Embeds the startup validation in `main` (app.js lines 349-357): an empty
pattern is rejected by `if (!domain)` (the empty string is falsy) and a
pattern without `.` by `if (!domain.includes('.'))`; both exit the process
before any generation or probing. -/
def mainAccepts (domain : List Char) : Bool :=
  !domain.isEmpty && domain.contains '.'

theorem isDomainAvailable_fst (res : ResolveResult) (st : Stats) :
    (isDomainAvailable res st).1 = availBool res := by
  cases res with
  | success => rfl
  | failure code => simp only [isDomainAvailable, availBool]; split <;> simp_all

theorem isDomainAvailable_total (res : ResolveResult) (st : Stats) :
    (isDomainAvailable res st).2.total = st.total := by
  cases res with
  | success => rfl
  | failure code => simp only [isDomainAvailable]; split <;> rfl

theorem isDomainAvailable_checked (res : ResolveResult) (st : Stats) :
    (isDomainAvailable res st).2.checked = st.checked := by
  cases res with
  | success => rfl
  | failure code => simp only [isDomainAvailable]; split <;> rfl

theorem isDomainAvailable_avail (res : ResolveResult) (st : Stats) :
    (isDomainAvailable res st).2.available = st.available := by
  cases res with
  | success => rfl
  | failure code => simp only [isDomainAvailable]; split <;> rfl

theorem isDomainAvailable_errors (res : ResolveResult) (st : Stats) :
    (isDomainAvailable res st).2.errors
      = st.errors + (if specOutcome res = Outcome.error then 1 else 0) := by
  cases res with
  | success => rfl
  | failure code =>
      simp only [isDomainAvailable, specOutcome]
      split <;> simp_all

theorem availBool_iff_specOutcome (res : ResolveResult) :
    availBool res = true ↔ specOutcome res = Outcome.available := by
  cases res with
  | success => simp [availBool, specOutcome]
  | failure code =>
      simp only [availBool, specOutcome]
      split <;> simp_all

theorem chunks_nil (b : Nat) : chunks b ([] : List α) = [] := by
  rw [chunks]

theorem chunks_cons (b : Nat) (x : α) (xs : List α) :
    chunks b (x :: xs) = (x :: xs.take (b - 1)) :: chunks b (xs.drop (b - 1)) := by
  rw [chunks]

theorem chunks_flatten_aux (b : Nat) :
    ∀ (n : Nat) (l : List α), l.length ≤ n → (chunks b l).flatten = l := by
  intro n
  induction n with
  | zero =>
      intro l h
      have : l = [] := List.length_eq_zero.mp (Nat.le_zero.mp h)
      subst this
      simp [chunks_nil]
  | succ n ih =>
      intro l h
      match l with
      | [] => simp [chunks_nil]
      | x :: xs =>
          rw [chunks_cons]
          have hlen : (xs.drop (b - 1)).length ≤ n := by
            simp only [List.length_drop]
            simp only [List.length_cons] at h
            omega
          simp only [List.flatten_cons, ih (xs.drop (b - 1)) hlen]
          simp [List.take_append_drop]

theorem chunks_flatten (b : Nat) (l : List α) : (chunks b l).flatten = l :=
  chunks_flatten_aux b l.length l Nat.le.refl

theorem chunks_length_le_aux (b : Nat) (hb : 1 ≤ b) :
    ∀ (n : Nat) (l : List α), l.length ≤ n → ∀ c ∈ chunks b l, c.length ≤ b := by
  intro n
  induction n with
  | zero =>
      intro l h
      have : l = [] := List.length_eq_zero.mp (Nat.le_zero.mp h)
      subst this
      simp [chunks_nil]
  | succ n ih =>
      intro l h
      match l with
      | [] => simp [chunks_nil]
      | x :: xs =>
          rw [chunks_cons]
          intro c hc
          rcases List.mem_cons.mp hc with h1 | h2
          · subst h1
            simp only [List.length_cons]
            have := List.length_take_le (b - 1) xs
            omega
          · exact ih (xs.drop (b - 1))
              (by simp only [List.length_drop]; simp only [List.length_cons] at h; omega) c h2

theorem chunks_length_le (b : Nat) (hb : 1 ≤ b) (l : List α) :
    ∀ c ∈ chunks b l, c.length ≤ b :=
  chunks_length_le_aux b hb l.length l Nat.le.refl

theorem processDomainBatch_eq_foldl (resolve : List Char → ResolveResult) (b : Nat)
    (s : RunState) (l : List (List Char)) :
    processDomainBatch resolve b s l = l.foldl (processOne resolve) s := by
  unfold processDomainBatch
  rw [← List.foldl_flatten, chunks_flatten]

theorem processOne_total (resolve : List Char → ResolveResult) (s : RunState)
    (d : List Char) : (processOne resolve s d).stats.total = s.stats.total := by
  simp only [processOne]
  split <;> simp [isDomainAvailable_total]

theorem processOne_checked (resolve : List Char → ResolveResult) (s : RunState)
    (d : List Char) : (processOne resolve s d).stats.checked = s.stats.checked + 1 := by
  simp only [processOne]
  split <;> simp [isDomainAvailable_checked]

theorem processOne_errors (resolve : List Char → ResolveResult) (s : RunState)
    (d : List Char) :
    (processOne resolve s d).stats.errors
      = s.stats.errors + (if specOutcome (resolve d) = Outcome.error then 1 else 0) := by
  simp only [processOne]
  split <;> simp [isDomainAvailable_errors]

theorem processOne_available (resolve : List Char → ResolveResult) (s : RunState)
    (d : List Char) :
    (processOne resolve s d).stats.available
      = s.stats.available + (if availBool (resolve d) then 1 else 0) := by
  simp only [processOne]
  split
  · rename_i h
    rw [isDomainAvailable_fst] at h
    simp [h, isDomainAvailable_avail]
  · rename_i h
    rw [isDomainAvailable_fst] at h
    simp only [Bool.not_eq_true] at h
    simp [h, isDomainAvailable_avail]

theorem processOne_sink (resolve : List Char → ResolveResult) (s : RunState)
    (d : List Char) :
    (processOne resolve s d).sink
      = s.sink ++ (if availBool (resolve d) then [d] else []) := by
  simp only [processOne]
  split
  · rename_i h
    rw [isDomainAvailable_fst] at h
    simp [h]
  · rename_i h
    rw [isDomainAvailable_fst] at h
    simp only [Bool.not_eq_true] at h
    simp [h]

theorem processOne_results (resolve : List Char → ResolveResult) (s : RunState)
    (d : List Char) :
    (processOne resolve s d).results = s.results ++ [(d, availBool (resolve d))] := by
  simp only [processOne]
  split <;> simp [isDomainAvailable_fst]

theorem processOne_ring (resolve : List Char → ResolveResult) (s : RunState)
    (d : List Char) (h : s.recentlyFound.length ≤ 3) :
    (processOne resolve s d).recentlyFound
      = ((if availBool (resolve d) then [d] else []) ++ s.recentlyFound).take 3 := by
  simp only [processOne]
  split
  · rename_i hav
    rw [isDomainAvailable_fst] at hav
    simp only [hav, if_true, List.singleton_append]
    split
    · rename_i hgt
      rw [List.dropLast_eq_take]
      congr 1
      simp only [List.length_cons] at hgt ⊢
      omega
    · rename_i hle
      rw [List.take_of_length_le]
      simp only [List.length_cons, Nat.not_lt] at hle ⊢
      omega
  · rename_i hav
    rw [isDomainAvailable_fst] at hav
    simp only [Bool.not_eq_true] at hav
    simp only [hav, Bool.false_eq_true, if_false, List.nil_append]
    rw [List.take_of_length_le h]

theorem foldl_total (resolve : List Char → ResolveResult) (l : List (List Char)) :
    ∀ s : RunState, (l.foldl (processOne resolve) s).stats.total = s.stats.total := by
  induction l with
  | nil => intro s; rfl
  | cons d rest ih =>
      intro s
      simp only [List.foldl_cons, ih, processOne_total]

theorem foldl_checked (resolve : List Char → ResolveResult) (l : List (List Char)) :
    ∀ s : RunState,
      (l.foldl (processOne resolve) s).stats.checked = s.stats.checked + l.length := by
  induction l with
  | nil => intro s; rfl
  | cons d rest ih =>
      intro s
      simp only [List.foldl_cons, ih, processOne_checked, List.length_cons]
      omega

theorem foldl_available (resolve : List Char → ResolveResult) (l : List (List Char)) :
    ∀ s : RunState,
      (l.foldl (processOne resolve) s).stats.available
        = s.stats.available + (l.filter fun d => availBool (resolve d)).length := by
  induction l with
  | nil => intro s; rfl
  | cons d rest ih =>
      intro s
      simp only [List.foldl_cons, ih, processOne_available, List.filter_cons]
      split <;> simp <;> omega

theorem foldl_errors (resolve : List Char → ResolveResult) (l : List (List Char)) :
    ∀ s : RunState,
      (l.foldl (processOne resolve) s).stats.errors
        = s.stats.errors
            + (l.filter fun d => decide (specOutcome (resolve d) = Outcome.error)).length := by
  induction l with
  | nil => intro s; rfl
  | cons d rest ih =>
      intro s
      simp only [List.foldl_cons, ih, processOne_errors, List.filter_cons]
      split <;> simp_all <;> omega

theorem foldl_sink (resolve : List Char → ResolveResult) (l : List (List Char)) :
    ∀ s : RunState,
      (l.foldl (processOne resolve) s).sink
        = s.sink ++ l.filter fun d => availBool (resolve d) := by
  induction l with
  | nil => intro s; simp
  | cons d rest ih =>
      intro s
      simp only [List.foldl_cons, ih, processOne_sink, List.filter_cons]
      split <;> simp_all

theorem foldl_results (resolve : List Char → ResolveResult) (l : List (List Char)) :
    ∀ s : RunState,
      (l.foldl (processOne resolve) s).results
        = s.results ++ l.map fun d => (d, availBool (resolve d)) := by
  induction l with
  | nil => intro s; simp
  | cons d rest ih =>
      intro s
      simp only [List.foldl_cons, ih, processOne_results, List.map_cons]
      simp

theorem take_append_take (a b : List α) (n : Nat) :
    (a ++ b.take n).take n = (a ++ b).take n := by
  rw [List.take_append_eq_append_take, List.take_append_eq_append_take, List.take_take]
  have : min (n - a.length) n = n - a.length := Nat.min_eq_left (Nat.sub_le n a.length)
  rw [this]

theorem foldl_ring (resolve : List Char → ResolveResult) (l : List (List Char)) :
    ∀ s : RunState, s.recentlyFound.length ≤ 3 →
      (l.foldl (processOne resolve) s).recentlyFound
        = ((l.filter fun d => availBool (resolve d)).reverse ++ s.recentlyFound).take 3 := by
  induction l with
  | nil =>
      intro s hs
      simp [List.take_of_length_le hs]
  | cons d rest ih =>
      intro s hs
      have hring := processOne_ring resolve s d hs
      have hlen : (processOne resolve s d).recentlyFound.length ≤ 3 := by
        rw [hring]
        exact List.length_take_le 3 _
      simp only [List.foldl_cons, ih (processOne resolve s d) hlen, hring,
        List.filter_cons]
      by_cases hav : availBool (resolve d) = true
      · simp only [hav, if_true, List.reverse_cons, List.singleton_append,
          List.append_assoc]
        rw [take_append_take]
      · simp only [Bool.not_eq_true] at hav
        simp only [hav, Bool.false_eq_true, if_false, List.nil_append]
        rw [take_append_take]

theorem expandWildcards_length (chars : List Char) (p : List Char) :
    (expandWildcards chars p).length = chars.length ^ (p.count '*') := by
  induction p with
  | nil => simp [expandWildcards]
  | cons c rest ih =>
      by_cases hc : c = '*'
      · subst hc
        simp only [expandWildcards, if_true]
        rw [List.length_flatten]
        simp only [List.map_map, Function.comp_def, List.length_map]
        rw [List.map_const', List.sum_replicate, smul_eq_mul, ih, List.count_cons]
        simp [pow_succ, Nat.mul_comm]
      · simp only [expandWildcards, if_neg hc, List.length_map, ih, List.count_cons]
        have : (c == '*') = false := by simpa using hc
        simp [this]

theorem expandWildcards_nodup (chars : List Char) (h : chars.Nodup) (p : List Char) :
    (expandWildcards chars p).Nodup := by
  induction p with
  | nil => simp [expandWildcards]
  | cons c rest ih =>
      by_cases hc : c = '*'
      · subst hc
        simp only [expandWildcards, if_true]
        rw [List.nodup_flatten]
        constructor
        · intro l hl
          rw [List.mem_map] at hl
          obtain ⟨ch, _, rfl⟩ := hl
          exact ih.map List.cons_injective
        · rw [List.pairwise_map]
          refine List.Pairwise.imp ?_ h
          intro a b hab x hxa hxb
          rw [List.mem_map] at hxa hxb
          obtain ⟨t, _, rfl⟩ := hxa
          obtain ⟨t', _, het⟩ := hxb
          exact hab (List.cons.inj het).1.symm
      · simp only [expandWildcards, if_neg hc]
        exact ih.map List.cons_injective

theorem expandWildcards_matches (chars p : List Char) :
    ∀ q ∈ expandWildcards chars p, MatchesPattern chars p q := by
  induction p with
  | nil =>
      intro q hq
      simp only [expandWildcards, List.mem_singleton] at hq
      subst hq
      exact List.Forall₂.nil
  | cons c rest ih =>
      intro q hq
      by_cases hc : c = '*'
      · subst hc
        simp only [expandWildcards, if_true] at hq
        rw [List.mem_flatten] at hq
        obtain ⟨l, hl, hql⟩ := hq
        rw [List.mem_map] at hl
        obtain ⟨ch, hch, rfl⟩ := hl
        rw [List.mem_map] at hql
        obtain ⟨t, ht, rfl⟩ := hql
        exact List.Forall₂.cons (by simp [hch]) (ih t ht)
      · simp only [expandWildcards, if_neg hc] at hq
        rw [List.mem_map] at hq
        obtain ⟨t, ht, rfl⟩ := hq
        refine List.Forall₂.cons ?_ (ih t ht)
        simp [hc]

theorem matchesPattern_self (chars p : List Char) (h : '*' ∉ p) :
    MatchesPattern chars p p := by
  induction p with
  | nil => exact List.Forall₂.nil
  | cons c rest ih =>
      simp only [List.mem_cons, not_or] at h
      refine List.Forall₂.cons ?_ (ih h.2)
      have : c ≠ '*' := fun hcc => h.1 hcc.symm
      simp [this]

theorem generateDomains_expand (r : Bool) (perm p : List Char)
    (hw : p.contains '*' = true) :
    generateDomains r perm p = expandWildcards (if r then perm else ALPHABET) p := by
  unfold generateDomains
  rw [hw]
  simp

theorem generateDomains_single (r : Bool) (perm p : List Char)
    (hw : p.contains '*' = false) :
    generateDomains r perm p = [p] := by
  unfold generateDomains
  rw [hw]
  simp

/-- C1: for every pattern with `k` wildcard markers and every alphabet of
distinct characters (the character list `generateDomains` actually expands
with: the shuffled permutation when `randomize` is true, `CONFIG.ALPHABET`
otherwise), `generateDomains` returns exactly `n ^ k` candidates (`n` the
alphabet size), they are pairwise distinct, and every returned candidate
equals the pattern with each `*` position replaced by some alphabet character
and all non-wildcard positions unchanged. -/
theorem generateDomains_card_nodup_matches (r : Bool) (perm p : List Char)
    (h : (if r then perm else ALPHABET).Nodup) :
    (generateDomains r perm p).length
      = (if r then perm else ALPHABET).length ^ (p.count '*') ∧
    (generateDomains r perm p).Nodup ∧
    (generateDomains r perm p).Forall
      (MatchesPattern (if r then perm else ALPHABET) p) := by
  by_cases hw : p.contains '*' = true
  · rw [generateDomains_expand r perm p hw]
    refine ⟨expandWildcards_length _ _, expandWildcards_nodup _ h _, ?_⟩
    rw [List.forall_iff_forall_mem]
    exact expandWildcards_matches _ _
  · have hw' : p.contains '*' = false := by simpa using hw
    have hmem : '*' ∉ p := by simpa using hw'
    rw [generateDomains_single r perm p hw']
    refine ⟨?_, ?_, ?_⟩
    · simp [List.count_eq_zero.mpr hmem]
    · simp
    · rw [List.forall_iff_forall_mem]
      intro q hq
      rw [List.mem_singleton] at hq
      subst hq
      exact matchesPattern_self _ _ hmem

theorem generateDomains_card_nodup_matches_witness :
    (generateDomains true ['a', 'b'] ['t', 'e', '*', 't']).length
      = (if true then ['a', 'b'] else ALPHABET).length ^ (['t', 'e', '*', 't'].count '*') ∧
    (generateDomains true ['a', 'b'] ['t', 'e', '*', 't']).Nodup ∧
    (generateDomains true ['a', 'b'] ['t', 'e', '*', 't']).Forall
      (MatchesPattern (if true then ['a', 'b'] else ALPHABET) ['t', 'e', '*', 't']) :=
  generateDomains_card_nodup_matches true ['a', 'b'] ['t', 'e', '*', 't'] (by decide)

/-- C2: the probe classifies a successful resolution as `Unavailable`, returns
available (`true`) exactly for the ENOTFOUND/ENODATA class of failures, and
for every other failure (`Error`) it returns not-available and increments the
error counter (and only then); and the scheduler's Result Sink receives
exactly the candidates whose probe returned available, so an `Error` domain is
never written to it. -/
theorem probe_classification (res : ResolveResult) (st : Stats)
    (resolve : List Char → ResolveResult) (b : Nat) (domains : List (List Char)) :
    (specOutcome res = Outcome.unavailable ↔ res = ResolveResult.success) ∧
    ((isDomainAvailable res st).1 = availBool res) ∧
    ((isDomainAvailable res st).1 = true ↔ specOutcome res = Outcome.available) ∧
    ((isDomainAvailable res st).2.errors
      = st.errors + (if specOutcome res = Outcome.error then 1 else 0)) ∧
    (runOnCandidates resolve (b + 1) domains).sink
      = domains.filter (fun d => availBool (resolve d)) := by
  refine ⟨?_, isDomainAvailable_fst res st, ?_, isDomainAvailable_errors res st, ?_⟩
  · cases res with
    | success => simp [specOutcome]
    | failure code =>
        simp only [specOutcome]
        split <;> simp
  · rw [isDomainAvailable_fst]
    exact availBool_iff_specOutcome res
  · unfold runOnCandidates
    rw [processDomainBatch_eq_foldl, foldl_sink]
    simp [runInit]

/-- C3: the claim says a probe whose backing resolution never completes is
cut off and classified `Error` after exactly the configured timeout.  In the
source the timeout only arms a timer that aborts an `AbortController` whose
signal is never handed to `dns.resolve`, so the configured timeout value has
no effect whatsoever on the probe's result: the probe simply waits for the
resolution.  This theorem records that the embedded probe is entirely
independent of the timeout value. -/
theorem isDomainAvailableTimed_timeout_dead (t₁ t₂ : Nat) (res : ResolveResult)
    (st : Stats) : isDomainAvailableTimed t₁ res st = isDomainAvailableTimed t₂ res st :=
  rfl

/-- C4: for every candidate list and batch size `b + 1 ≥ 1`, the scheduler's
partition consists of consecutive batches of at most `b + 1` elements whose
concatenation is the candidate list in order, every candidate is probed
exactly once (the settled results list is the candidate list in order), and
after normal completion `checked = total`. -/
theorem scheduler_partition_checked_eq_total (resolve : List Char → ResolveResult)
    (b : Nat) (domains : List (List Char)) :
    (chunks (b + 1) domains).flatten = domains ∧
    (chunks (b + 1) domains).Forall (fun c => c.length ≤ b + 1) ∧
    (runOnCandidates resolve (b + 1) domains).results.map Prod.fst = domains ∧
    (runOnCandidates resolve (b + 1) domains).stats.checked
      = (runOnCandidates resolve (b + 1) domains).stats.total := by
  refine ⟨chunks_flatten _ _, ?_, ?_, ?_⟩
  · rw [List.forall_iff_forall_mem]
    exact chunks_length_le (b + 1) (Nat.succ_le_succ (Nat.zero_le b)) domains
  · unfold runOnCandidates
    rw [processDomainBatch_eq_foldl, foldl_results]
    simp [runInit, Function.comp_def]
  · unfold runOnCandidates
    rw [processDomainBatch_eq_foldl, foldl_checked, foldl_total]
    simp [runInit]

/-- C5 counterexample: the candidate generator does not fail on the empty
pattern — it returns normally with the singleton list containing the empty
string (there is no failure path in `generateDomains` at all). -/
theorem generateDomains_empty_cex :
    generateDomains true ALPHABET [] = [[]] ∧
    (generateDomains true ALPHABET []).length = 1 := by
  exact ⟨rfl, rfl⟩

/-- C5 (amended): the generator itself has no precondition: on the empty
pattern it returns `[""]`, and on a non-empty pattern without a `.` it returns
that pattern unchanged.  Rejecting the empty pattern (like TLD validation) is
the CLI caller's concern: `main` refuses an empty pattern and a pattern
without `.` before any generation or probing begins. -/
theorem generateDomains_empty_total (r : Bool) (perm : List Char) :
    generateDomains r perm [] = [[]] ∧
    mainAccepts [] = false ∧
    mainAccepts ['a', 'b'] = false ∧
    mainAccepts ['a', '.', 'c'] = true ∧
    generateDomains r perm ['a', 'b'] = [['a', 'b']] :=
  ⟨rfl, rfl, rfl, rfl, rfl⟩

/-- C6 counterexample: the prober does not leave the shared run statistics
unchanged — on a failure outside the ENOTFOUND/ENODATA class it mutates
`stats.errors` itself (app.js line 47). -/
theorem prober_mutates_stats_cex :
    (isDomainAvailable (ResolveResult.failure "ETIMEOUT") ⟨7, 3, 1, 0⟩).2
      ≠ (⟨7, 3, 1, 0⟩ : Stats) := by
  decide

/-- C6 (amended): the prober leaves `total`, `checked` and `available`
unchanged and returns its outcome, but it increments the shared `errors`
counter itself, exactly when the outcome is `Error`; the `checked` and
`available` updates (and sink/ring writes) are performed by the calling
scheduler. -/
theorem prober_frame (res : ResolveResult) (st : Stats) :
    (isDomainAvailable res st).2.total = st.total ∧
    (isDomainAvailable res st).2.checked = st.checked ∧
    (isDomainAvailable res st).2.available = st.available ∧
    (isDomainAvailable res st).2.errors
      = st.errors + (if specOutcome res = Outcome.error then 1 else 0) :=
  ⟨isDomainAvailable_total res st, isDomainAvailable_checked res st,
    isDomainAvailable_avail res st, isDomainAvailable_errors res st⟩

/-- C7: the recent-hits list starts empty, and after any number `m` of probe
completions it equals exactly the most recently discovered available domains,
newest first, truncated to 3 — in particular its length never exceeds 3 and it
is never cleared mid-run; the same holds at the end of a full batched run for
any batch size `b + 1 ≥ 1`. -/
theorem recent_hits_ring (resolve : List Char → ResolveResult)
    (l : List (List Char)) (m b : Nat) :
    (runInit l).recentlyFound = [] ∧
    ((l.take m).foldl (processOne resolve) (runInit l)).recentlyFound
      = ((l.take m).filter (fun d => availBool (resolve d))).reverse.take 3 ∧
    ((l.take m).foldl (processOne resolve) (runInit l)).recentlyFound.length ≤ 3 ∧
    (runOnCandidates resolve (b + 1) l).recentlyFound
      = (l.filter (fun d => availBool (resolve d))).reverse.take 3 := by
  have h0 : (runInit l).recentlyFound = [] := rfl
  have h1 := foldl_ring resolve (l.take m) (runInit l) (by rw [h0]; simp)
  refine ⟨h0, ?_, ?_, ?_⟩
  · rw [h1, h0]
    simp
  · rw [h1, h0]
    simpa using List.length_take_le 3 _
  · unfold runOnCandidates
    rw [processDomainBatch_eq_foldl, foldl_ring resolve l (runInit l) (by rw [h0]; simp), h0]
    simp

/-- C8: for every candidate list and every assignment of per-probe resolution
outcomes — failures included — the batched run completes normally: every
candidate ends up with a settled result in order, all are counted in
`checked`, and probe failures only accumulate in the error counter instead of
terminating the batch or the run. -/
theorem run_never_aborts (resolve : List Char → ResolveResult) (b : Nat)
    (domains : List (List Char)) :
    (runOnCandidates resolve (b + 1) domains).results
      = domains.map (fun d => (d, availBool (resolve d))) ∧
    (runOnCandidates resolve (b + 1) domains).stats.checked = domains.length ∧
    (runOnCandidates resolve (b + 1) domains).stats.errors
      = (domains.filter (fun d => decide (specOutcome (resolve d) = Outcome.error))).length := by
  unfold runOnCandidates
  rw [processDomainBatch_eq_foldl]
  refine ⟨?_, ?_, ?_⟩
  · rw [foldl_results]
    simp [runInit]
  · rw [foldl_checked]
    simp [runInit]
  · rw [foldl_errors]
    simp [runInit]

/-- C9: for every non-empty pattern containing no wildcard marker,
`generateDomains` returns exactly the one-element sequence holding the input
pattern unchanged, for every alphabet permutation and every value of the
shuffle flag. -/
theorem generateDomains_zero_wildcards (r : Bool) (perm p : List Char)
    (hne : p ≠ []) (hw : p.contains '*' = false) :
    generateDomains r perm p = [p] :=
  generateDomains_single r perm p hw

theorem generateDomains_zero_wildcards_witness :
    generateDomains true ['x'] ['a', '.', 'c'] = [['a', '.', 'c']] :=
  generateDomains_zero_wildcards true ['x'] ['a', '.', 'c'] (by decide) (by decide)

/-- C10: `findAvailableDomains` invokes the generator with the shuffle default
(`randomize = true`, no second argument at the call site), so the candidates
it probes come from the randomly permuted alphabet, never from the
deterministic `shuffle = false` ordering; and the permutation genuinely
matters — there is a permutation of the alphabet for which the shuffled order
differs from the unshuffled one. -/
theorem findAvailableDomains_uses_shuffled_order (perm p : List Char) :
    findAvailableDomainsCandidates perm p = generateDomains true perm p ∧
    generateDomains true perm p
      = (if !p.contains '*' then [p] else expandWildcards perm p) ∧
    (∃ q : List Char, q.Perm ALPHABET ∧
        generateDomains true q ['a', '*', '.', 'c']
          ≠ generateDomains false q ['a', '*', '.', 'c']) := by
  refine ⟨rfl, ?_, ?_⟩
  · by_cases hw : p.contains '*' = true
    · rw [generateDomains_expand true perm p hw, hw]
      simp
    · have hw' : p.contains '*' = false := by simpa using hw
      rw [generateDomains_single true perm p hw', hw']
      simp
  · exact ⟨ALPHABET.reverse, List.reverse_perm ALPHABET, by decide⟩
